import Mathlib

/-!
# Verification of the Adopt Orphan plugin's orphan-link index

This file gives a shallow embedding of the orphan-link index of the
Adopt Orphan plugin (revision at `src/unnamed/part_001`, plus the
`createFile` variant of the revision embedded in `src/README.md`), and
proves the specification claims about it.

Modelling choices:
* A JS `Set<string>` is an insertion-ordered, duplicate-free list
  (`StrSet`), exactly as JS sets behave.
* A JS `Map<string, Set<string>>` is an association list (`LinkCache`);
  `Map.set` replaces the value of the first (unique) matching key in
  place, or appends a fresh entry at the end.
* The vault is the list of markdown files, each either readable with a
  content string, or failing on `vault.read` (`DocContent.readError`,
  which the source catches per document).
* The regex global scan `/\[\[([^\]]+)\]\]/g` is `scanLinks`: at each
  position a match needs `[[`, then a nonempty maximal run of
  characters other than `]`, then `]]`; on failure the scan advances by
  one character, on success it continues after the match.  The fuel
  argument (initially the length of the input) only bounds the number
  of scan steps, each of which consumes at least one character.
* `Array.from(set).sort()` is modelled by `List.insertionSort (· ≤ ·)`:
  on a duplicate-free array the JS default sort returns the unique
  lexicographically sorted permutation, which insertion sort computes.
-/

namespace AdoptOrphan

/-- Model of a JS `Set<string>`: insertion-ordered, duplicate-free list. -/
abbrev StrSet := List String

/-- `set.add(s)`: append `s` unless already present. -/
def setAdd (l : StrSet) (s : String) : StrSet :=
  if s ∈ l then l else l ++ [s]

/-- One scan step of the global regex `/\[\[([^\]]+)\]\]/g` of
`updateFileCache` (src/unnamed/part_001 line 74): a match needs `[[`,
then a nonempty maximal run of non-`]` characters, then `]]`; the
returned lists are the inner runs (what `match.slice(2, -2)` yields on
the full match `[[run]]`).  On failure the scan advances one character;
on success it resumes after the consumed match. -/
def scanLinksAux : Nat → List Char → List (List Char)
  | 0, _ => []
  | _ + 1, [] => []
  | _ + 1, [_] => []
  | fuel + 1, c1 :: c2 :: rest =>
    if c1 = '[' ∧ c2 = '[' then
      let run := rest.takeWhile (fun c => c ≠ ']')
      let rest' := rest.dropWhile (fun c => c ≠ ']')
      if run ≠ [] ∧ rest'.take 2 = [']', ']'] then
        run :: scanLinksAux fuel (rest'.drop 2)
      else
        scanLinksAux fuel (c2 :: rest)
    else
      scanLinksAux fuel (c2 :: rest)

/-- All regex matches of `/\[\[([^\]]+)\]\]/g` over the content, as the
inner runs between the double brackets. -/
def scanLinks (cs : List Char) : List (List Char) :=
  scanLinksAux cs.length cs

/-- `match.split("|")[0]`: everything before the first `|`. -/
def beforeBar (cs : List Char) : List Char :=
  cs.takeWhile (fun c => c ≠ '|')

/-- JS `String.prototype.trim`, on the character list. -/
def jsTrim (cs : List Char) : List Char :=
  ((cs.dropWhile Char.isWhitespace).reverse.dropWhile Char.isWhitespace).reverse

/-- `match.slice(2, -2).split("|")[0].trim()` applied to one regex
match (src/unnamed/part_001 line 78), given the inner run. -/
def linkNameOf (run : List Char) : String :=
  String.mk (jsTrim (beforeBar run))

/-- The extraction loop of `updateFileCache` (src/unnamed/part_001
lines 74-80): process every match and add the non-empty results to a
fresh set. -/
def extractLinks (content : String) : StrSet :=
  (scanLinks content.data).foldl
    (fun links m =>
      let n := linkNameOf m
      if n ≠ "" then setAdd links n else links)
    []

/-- Model of the plugin's `linkCache : Map<string, Set<string>>`. -/
abbrev LinkCache := List (String × StrSet)

/-- `map.has(k)`. -/
def mapHas (m : LinkCache) (k : String) : Bool :=
  m.any (fun e => e.1 == k)

/-- `map.get(k)` (`none` models `undefined`). -/
def mapGet (m : LinkCache) (k : String) : Option StrSet :=
  (m.find? (fun e => e.1 == k)).map Prod.snd

/-- `map.set(k, v)`: replace the value at the first matching key in
place, else append a new entry. -/
def mapSet (m : LinkCache) (k : String) (v : StrSet) : LinkCache :=
  match m with
  | [] => [(k, v)]
  | e :: rest => if e.1 = k then (k, v) :: rest else e :: mapSet rest k v

/-- `map.delete(k)`. -/
def mapDelete (m : LinkCache) (k : String) : LinkCache :=
  m.filter (fun e => e.1 != k)

/-- Content of one markdown file as seen by `vault.read`: either the
content string, or a read failure (caught per document by
`updateFileCache`'s `try`/`catch`). -/
inductive DocContent where
  | ok (content : String)
  | readError
deriving DecidableEq

/-- The external store: the list of markdown files
(`vault.getMarkdownFiles()`), identified by path. -/
abbrev Vault := List (String × DocContent)

/-- `vault.getAbstractFileByPath` + `vault.read` combined: the content
of the markdown file at `p`, if `p` resolves to a file. -/
def vaultLookup (v : Vault) (p : String) : Option DocContent :=
  (v.find? (fun e => e.1 == p)).map Prod.snd

/-- Whether a file with path `p` exists in the store (the `paths.has`
check of `getOrphans`). -/
def existsPath (v : Vault) (p : String) : Bool :=
  v.any (fun e => e.1 == p)

/-- The plugin's state: the link cache, plus a counter of emitted
refresh notifications (`refreshView` calls). -/
structure PluginState where
  linkCache : LinkCache
  refreshCount : Nat
deriving DecidableEq

/-- `refreshView()` (src/unnamed/part_001 lines 89-93): emit one
refresh notification. -/
def refreshView (st : PluginState) : PluginState :=
  { st with refreshCount := st.refreshCount + 1 }

/-- `updateFileCache(filePath, skipRefresh)` (src/unnamed/part_001
lines 68-87): if the path resolves to a file whose read succeeds,
replace the cached set for the path wholesale with the freshly
extracted links, then refresh unless asked not to; otherwise (missing
file, or a read error caught by the `try`/`catch`) leave the state
unchanged. -/
def updateFileCache (vault : Vault) (st : PluginState) (filePath : String)
    (skipRefresh : Bool) : PluginState :=
  match vaultLookup vault filePath with
  | none => st
  | some DocContent.readError => st
  | some (DocContent.ok content) =>
    let st' : PluginState :=
      { st with linkCache := mapSet st.linkCache filePath (extractLinks content) }
    if skipRefresh then st' else refreshView st'

/-- `buildCache()` (src/unnamed/part_001 lines 61-66): update the cache
for every markdown file, skipping the per-file refresh. -/
def buildCache (vault : Vault) (st : PluginState) : PluginState :=
  vault.foldl (fun s e => updateFileCache vault s e.1 true) st

/-- The fold of `buildCache` over an arbitrary file list, for induction. -/
def buildCacheAux (vault : Vault) (l : List (String × DocContent))
    (st : PluginState) : PluginState :=
  l.foldl (fun s e => updateFileCache vault s e.1 true) st

/-- The `vault.on("delete")` handler (src/unnamed/part_001 lines
32-37): drop the entry and refresh. -/
def onDelete (st : PluginState) (path : String) : PluginState :=
  refreshView { st with linkCache := mapDelete st.linkCache path }

/-- The `vault.on("rename")` handler (src/unnamed/part_001 lines
39-50); the handler receives `(file, oldPath)`, so the first string is
the new path.  If the old path is cached, its set is stored under the
new path and the old entry deleted; in all cases a refresh is
emitted. -/
def onRename (st : PluginState) (newPath oldPath : String) : PluginState :=
  if mapHas st.linkCache oldPath then
    refreshView
      { st with
        linkCache :=
          mapDelete
            (mapSet st.linkCache newPath ((mapGet st.linkCache oldPath).getD []))
            oldPath }
  else
    refreshView st

/-- Lexicographic comparison of character lists by code point; this is
the order the JS default `Array.prototype.sort` comparator induces on
the orphan names. -/
def lexLe : List Char → List Char → Bool
  | [], _ => true
  | _ :: _, [] => false
  | a :: as, b :: bs =>
    if a.toNat < b.toNat then true
    else if b.toNat < a.toNat then false
    else lexLe as bs

/-- The string order used by `Array.from(orphans).sort()`:
case-sensitive lexicographic comparison by code point. -/
def strLe (a b : String) : Bool :=
  lexLe a.data b.data

/-- The per-link resolution check of `getOrphans` (src/unnamed/part_001
line 191): `[link + ".md", link].some((path) => paths.has(path))`. -/
def resolves (vault : Vault) (link : String) : Bool :=
  existsPath vault (link ++ ".md") || existsPath vault link

/-- The inner loop of `getOrphans`: add every unresolved link of one
cached set to the accumulated orphan set. -/
def addOrphansOf (vault : Vault) (acc : StrSet) (links : StrSet) : StrSet :=
  links.foldl (fun a link => if resolves vault link then a else setAdd a link) acc

/-- `getOrphans()` (src/unnamed/part_001 lines 183-197): collect every
cached link that resolves neither exactly nor with the `.md` suffix,
then return the deduplicated collection sorted
(`Array.from(orphans).sort()`). -/
def getOrphans (vault : Vault) (st : PluginState) : List String :=
  List.insertionSort (fun a b => strLe a b = true)
    (st.linkCache.foldl (fun acc e => addOrphansOf vault acc e.2) [])

/-- The user-visible outcome of a `createFile` click. -/
inductive NoticeKind where
  | created (path : String)
  | openedExisting (path : String)
  | failed
deriving DecidableEq

/-- Result of a `createFile` action: the store afterwards, the file
brought into view (if any), and the notice shown. -/
structure CreateResult where
  vault : Vault
  opened : Option String
  notice : NoticeKind
deriving DecidableEq

/-- `linkName.endsWith(".md") ? linkName : linkName + ".md"`. -/
def fileNameFor (linkName : String) : String :=
  if (".md".data).isSuffixOf linkName.data then linkName else linkName ++ ".md"

/-- `createFile` of src/unnamed/part_001 lines 199-210: no existence
check; `vault.create` throws when the path already exists, which the
`catch` turns into a failure notice. -/
def createFile (vault : Vault) (st : PluginState) (linkName : String) :
    PluginState × CreateResult :=
  let fileName := fileNameFor linkName
  if existsPath vault fileName then
    (st, ⟨vault, none, NoticeKind.failed⟩)
  else
    (st, ⟨vault ++ [(fileName, DocContent.ok "")], some fileName,
      NoticeKind.created fileName⟩)

/-- `createFile` of the revision embedded in src/README.md lines
264-288: normalize the name (the host's `normalizePath` is abstracted
as a parameter), and if the target already exists, open it with a
notice instead of creating; otherwise create and open the new file. -/
def createFileChecked (normalize : String → String) (vault : Vault)
    (st : PluginState) (linkName : String) : PluginState × CreateResult :=
  let np := normalize (fileNameFor linkName)
  if existsPath vault np then
    (st, ⟨vault, some np, NoticeKind.openedExisting np⟩)
  else
    (st, ⟨vault ++ [(np, DocContent.ok "")], some np, NoticeKind.created np⟩)

/-! ## Association-list lemmas for the `Map` model -/

theorem mapGet_cons (e : String × StrSet) (m : LinkCache) (k : String) :
    mapGet (e :: m) k = if e.1 = k then some e.2 else mapGet m k := by
  by_cases h : e.1 = k <;> simp [mapGet, List.find?_cons, h]

theorem mapGet_mapSet_self (m : LinkCache) (k : String) (v : StrSet) :
    mapGet (mapSet m k v) k = some v := by
  induction m with
  | nil => simp [mapSet, mapGet_cons]
  | cons e rest ih =>
    unfold mapSet
    by_cases h : e.1 = k
    · simp [h, mapGet_cons]
    · simp [h, mapGet_cons, ih]

theorem mapGet_mapSet_ne (m : LinkCache) (k p : String) (v : StrSet) (h : p ≠ k) :
    mapGet (mapSet m k v) p = mapGet m p := by
  induction m with
  | nil => simp [mapSet, mapGet_cons, mapGet, Ne.symm h]
  | cons e rest ih =>
    unfold mapSet
    by_cases he : e.1 = k
    · simp [he, mapGet_cons, Ne.symm h]
    · simp [he, mapGet_cons, ih]

theorem mapDelete_cons (e : String × StrSet) (m : LinkCache) (k : String) :
    mapDelete (e :: m) k =
      if e.1 = k then mapDelete m k else e :: mapDelete m k := by
  by_cases h : e.1 = k <;> simp [mapDelete, List.filter_cons, h]

theorem mapGet_mapDelete_self (m : LinkCache) (k : String) :
    mapGet (mapDelete m k) k = none := by
  induction m with
  | nil => simp [mapDelete, mapGet]
  | cons e rest ih =>
    rw [mapDelete_cons]
    by_cases h : e.1 = k
    · rw [if_pos h]; exact ih
    · rw [if_neg h, mapGet_cons, if_neg h]; exact ih

theorem mapGet_mapDelete_ne (m : LinkCache) (k p : String) (h : p ≠ k) :
    mapGet (mapDelete m k) p = mapGet m p := by
  induction m with
  | nil => simp [mapDelete]
  | cons e rest ih =>
    rw [mapDelete_cons]
    by_cases he : e.1 = k
    · rw [if_pos he, ih, mapGet_cons, if_neg (fun hep => h (hep.symm.trans he))]
    · rw [if_neg he, mapGet_cons, mapGet_cons, ih]

theorem mapHas_iff (m : LinkCache) (k : String) :
    mapHas m k = true ↔ ∃ v, mapGet m k = some v := by
  induction m with
  | nil => simp [mapHas, mapGet]
  | cons e rest ih =>
    rw [show mapHas (e :: rest) k = ((e.1 == k) || mapHas rest k) from rfl,
      mapGet_cons]
    by_cases h : e.1 = k
    · simp [h]
    · have hb : (e.1 == k) = false := by simp [h]
      rw [hb, Bool.false_or, if_neg h]
      exact ih

theorem mapGet_mem {m : LinkCache} {k : String} {v : StrSet}
    (h : mapGet m k = some v) : (k, v) ∈ m := by
  induction m with
  | nil => simp [mapGet] at h
  | cons e rest ih =>
    obtain ⟨a, s⟩ := e
    rw [mapGet_cons] at h
    by_cases ha : a = k
    · simp [ha] at h
      simp [ha, h]
    · simp [ha] at h
      exact List.mem_cons_of_mem _ (ih h)

theorem vaultLookup_cons (e : String × DocContent) (v : Vault) (p : String) :
    vaultLookup (e :: v) p = if e.1 = p then some e.2 else vaultLookup v p := by
  by_cases h : e.1 = p <;> simp [vaultLookup, List.find?_cons, h]

theorem vaultLookup_mem_keys {v : Vault} {p : String} {d : DocContent}
    (h : vaultLookup v p = some d) : p ∈ v.map Prod.fst := by
  induction v with
  | nil => simp [vaultLookup] at h
  | cons e es ih =>
    rw [vaultLookup_cons] at h
    by_cases he : e.1 = p
    · simp [he]
    · simp [he] at h
      simp [ih h]

/-! ## Set-model lemmas -/

theorem mem_setAdd {l : StrSet} {s x : String} :
    x ∈ setAdd l s ↔ x ∈ l ∨ x = s := by
  by_cases h : s ∈ l
  · rw [setAdd, if_pos h]
    constructor
    · exact Or.inl
    · rintro (hx | rfl)
      · exact hx
      · exact h
  · rw [setAdd, if_neg h]
    simp

theorem nodup_setAdd {l : StrSet} {s : String} (h : l.Nodup) :
    (setAdd l s).Nodup := by
  by_cases hs : s ∈ l
  · rw [setAdd, if_pos hs]; exact h
  · rw [setAdd, if_neg hs]
    simp [List.nodup_append, h, hs]

theorem addOrphansOf_cons (vault : Vault) (acc : StrSet) (l : String) (ls : StrSet) :
    addOrphansOf vault acc (l :: ls) =
      addOrphansOf vault (if resolves vault l then acc else setAdd acc l) ls := rfl

theorem mem_addOrphansOf (vault : Vault) :
    ∀ (links acc : StrSet) (x : String),
      x ∈ addOrphansOf vault acc links ↔
        x ∈ acc ∨ (x ∈ links ∧ resolves vault x = false) := by
  intro links
  induction links with
  | nil => simp [addOrphansOf]
  | cons l ls ih =>
    intro acc x
    rw [addOrphansOf_cons, ih]
    by_cases hr : resolves vault l = true
    · simp only [hr, if_true, List.mem_cons]
      constructor
      · rintro (hx | ⟨hx, hres⟩)
        · exact Or.inl hx
        · exact Or.inr ⟨Or.inr hx, hres⟩
      · rintro (hx | ⟨rfl | hx, hres⟩)
        · exact Or.inl hx
        · rw [hr] at hres; cases hres
        · exact Or.inr ⟨hx, hres⟩
    · rw [Bool.not_eq_true] at hr
      simp only [hr, Bool.false_eq_true, if_false, mem_setAdd, List.mem_cons]
      constructor
      · rintro (⟨hx | rfl⟩ | ⟨hx, hres⟩)
        · exact Or.inl hx
        · exact Or.inr ⟨Or.inl rfl, hr⟩
        · exact Or.inr ⟨Or.inr hx, hres⟩
      · rintro (hx | ⟨rfl | hx, hres⟩)
        · exact Or.inl (Or.inl hx)
        · exact Or.inl (Or.inr rfl)
        · exact Or.inr ⟨hx, hres⟩

theorem nodup_addOrphansOf (vault : Vault) :
    ∀ (links acc : StrSet), acc.Nodup → (addOrphansOf vault acc links).Nodup := by
  intro links
  induction links with
  | nil => intro acc h; exact h
  | cons l ls ih =>
    intro acc h
    rw [addOrphansOf_cons]
    by_cases hr : resolves vault l = true
    · simp only [hr, if_true]; exact ih _ h
    · rw [Bool.not_eq_true] at hr
      simp only [hr, Bool.false_eq_true, if_false]
      exact ih _ (nodup_setAdd h)

theorem mem_orphansFold (vault : Vault) :
    ∀ (entries : LinkCache) (acc : StrSet) (x : String),
      x ∈ entries.foldl (fun a e => addOrphansOf vault a e.2) acc ↔
        x ∈ acc ∨ ∃ e, e ∈ entries ∧ x ∈ e.2 ∧ resolves vault x = false := by
  intro entries
  induction entries with
  | nil => simp
  | cons e es ih =>
    intro acc x
    rw [List.foldl_cons, ih, mem_addOrphansOf]
    constructor
    · rintro ((hx | ⟨hx, hres⟩) | ⟨e', he', hx, hres⟩)
      · exact Or.inl hx
      · exact Or.inr ⟨e, List.mem_cons_self _ _, hx, hres⟩
      · exact Or.inr ⟨e', List.mem_cons_of_mem _ he', hx, hres⟩
    · rintro (hx | ⟨e', he', hx, hres⟩)
      · exact Or.inl (Or.inl hx)
      · rcases List.mem_cons.mp he' with rfl | he'
        · exact Or.inl (Or.inr ⟨hx, hres⟩)
        · exact Or.inr ⟨e', he', hx, hres⟩

theorem nodup_orphansFold (vault : Vault) :
    ∀ (entries : LinkCache) (acc : StrSet), acc.Nodup →
      (entries.foldl (fun a e => addOrphansOf vault a e.2) acc).Nodup := by
  intro entries
  induction entries with
  | nil => intro acc h; exact h
  | cons e es ih =>
    intro acc h
    exact ih _ (nodup_addOrphansOf vault _ _ h)

/-! ## Lexicographic order lemmas -/

theorem lexLe_head_le {a b : Char} {as bs : List Char}
    (h : lexLe (a :: as) (b :: bs) = true) : a.toNat ≤ b.toNat := by
  simp only [lexLe] at h
  split_ifs at h with h1 h2 <;> omega

theorem lexLe_head_eq_tail {a b : Char} {as bs : List Char}
    (h : lexLe (a :: as) (b :: bs) = true) (heq : a.toNat = b.toNat) :
    lexLe as bs = true := by
  simp only [lexLe, heq, Nat.lt_irrefl, if_false] at h
  exact h

theorem lexLe_total : ∀ as bs : List Char, lexLe as bs = true ∨ lexLe bs as = true := by
  intro as
  induction as with
  | nil => intro bs; left; simp [lexLe]
  | cons a as ih =>
    intro bs
    cases bs with
    | nil => right; simp [lexLe]
    | cons b bs =>
      rcases Nat.lt_trichotomy a.toNat b.toNat with h | h | h
      · left; simp [lexLe, h]
      · rcases ih bs with ht | ht
        · left; simp only [lexLe, h, Nat.lt_irrefl, if_false]; exact ht
        · right; simp only [lexLe, h, Nat.lt_irrefl, if_false]; exact ht
      · right; simp [lexLe, h]

theorem lexLe_trans :
    ∀ as bs cs : List Char,
      lexLe as bs = true → lexLe bs cs = true → lexLe as cs = true := by
  intro as
  induction as with
  | nil => intro bs cs _ _; simp [lexLe]
  | cons a as ih =>
    intro bs cs h1 h2
    cases bs with
    | nil => simp [lexLe] at h1
    | cons b bs =>
      cases cs with
      | nil => simp [lexLe] at h2
      | cons c cs =>
        have hab := lexLe_head_le h1
        have hbc := lexLe_head_le h2
        rcases Nat.lt_trichotomy a.toNat c.toNat with hac | hac | hac
        · simp [lexLe, hac]
        · have h1' := lexLe_head_eq_tail h1 (by omega)
          have h2' := lexLe_head_eq_tail h2 (by omega)
          simp only [lexLe]
          rw [if_neg (by omega), if_neg (by omega)]
          exact ih bs cs h1' h2'
        · exact ((by omega : False)).elim

theorem lexLe_antisymm :
    ∀ as bs : List Char, lexLe as bs = true → lexLe bs as = true → as = bs := by
  intro as
  induction as with
  | nil =>
    intro bs h1 h2
    cases bs with
    | nil => rfl
    | cons b bs => simp [lexLe] at h2
  | cons a as ih =>
    intro bs h1 h2
    cases bs with
    | nil => simp [lexLe] at h1
    | cons b bs =>
      have hab := lexLe_head_le h1
      have hba := lexLe_head_le h2
      have htn : a.toNat = b.toNat := by omega
      have hval : a = b := Char.ext (UInt32.ext htn)
      subst hval
      rw [ih bs (lexLe_head_eq_tail h1 rfl) (lexLe_head_eq_tail h2 rfl)]

instance : IsTotal String (fun a b => strLe a b = true) :=
  ⟨fun a b => lexLe_total a.data b.data⟩

instance : IsTrans String (fun a b => strLe a b = true) :=
  ⟨fun a b c => lexLe_trans a.data b.data c.data⟩

instance : IsAntisymm String (fun a b => strLe a b = true) :=
  ⟨fun a b h1 h2 => by
    apply String.ext
    exact lexLe_antisymm a.data b.data h1 h2⟩

/-! ## `getOrphans` characterization -/

theorem mem_getOrphans (vault : Vault) (st : PluginState) (x : String) :
    x ∈ getOrphans vault st ↔
      ∃ e, e ∈ st.linkCache ∧ x ∈ e.2 ∧ resolves vault x = false := by
  unfold getOrphans
  rw [List.mem_insertionSort, mem_orphansFold]
  simp

theorem nodup_getOrphans (vault : Vault) (st : PluginState) :
    (getOrphans vault st).Nodup := by
  unfold getOrphans
  rw [(List.perm_insertionSort _ _).nodup_iff]
  exact nodup_orphansFold vault _ _ List.nodup_nil

theorem sorted_getOrphans (vault : Vault) (st : PluginState) :
    (getOrphans vault st).Sorted (fun a b => strLe a b = true) :=
  List.sorted_insertionSort _ _

/-! ## `updateFileCache` and `buildCache` lemmas -/

theorem linkCache_branch (st' : PluginState) (b : Bool) :
    (if b then st' else refreshView st').linkCache = st'.linkCache := by
  cases b <;> rfl

theorem updateFileCache_none {vault : Vault} {p : String} (st : PluginState)
    (b : Bool) (h : vaultLookup vault p = none) :
    updateFileCache vault st p b = st := by
  simp [updateFileCache, h]

theorem updateFileCache_readError {vault : Vault} {p : String} (st : PluginState)
    (b : Bool) (h : vaultLookup vault p = some DocContent.readError) :
    updateFileCache vault st p b = st := by
  simp [updateFileCache, h]

theorem updateFileCache_linkCache_ok {vault : Vault} {p : String} {c : String}
    (st : PluginState) (b : Bool) (h : vaultLookup vault p = some (DocContent.ok c)) :
    (updateFileCache vault st p b).linkCache =
      mapSet st.linkCache p (extractLinks c) := by
  unfold updateFileCache
  rw [h]
  exact linkCache_branch _ b

theorem mapGet_updateFileCache_ne (vault : Vault) (st : PluginState)
    (q : String) (b : Bool) (p : String) (h : p ≠ q) :
    mapGet (updateFileCache vault st q b).linkCache p = mapGet st.linkCache p := by
  cases hv : vaultLookup vault q with
  | none => rw [updateFileCache_none st b hv]
  | some d =>
    cases d with
    | readError => rw [updateFileCache_readError st b hv]
    | ok c => rw [updateFileCache_linkCache_ok st b hv, mapGet_mapSet_ne _ _ _ _ h]

theorem buildCache_eq_aux (vault : Vault) (st : PluginState) :
    buildCache vault st = buildCacheAux vault vault st := rfl

theorem buildCacheAux_cons (vault : Vault) (e : String × DocContent)
    (l : List (String × DocContent)) (st : PluginState) :
    buildCacheAux vault (e :: l) st =
      buildCacheAux vault l (updateFileCache vault st e.1 true) := rfl

theorem mapGet_buildCacheAux_not_mem (vault : Vault) :
    ∀ (l : List (String × DocContent)) (st : PluginState) (p : String),
      p ∉ l.map Prod.fst →
      mapGet (buildCacheAux vault l st).linkCache p = mapGet st.linkCache p := by
  intro l
  induction l with
  | nil => intro st p _; rfl
  | cons e es ih =>
    intro st p hp
    rw [List.map_cons, List.mem_cons, not_or] at hp
    rw [buildCacheAux_cons, ih _ _ hp.2,
      mapGet_updateFileCache_ne _ _ _ _ _ hp.1]

theorem mapGet_buildCacheAux_readError {vault : Vault} {p : String}
    (h : vaultLookup vault p = some DocContent.readError) :
    ∀ (l : List (String × DocContent)) (st : PluginState),
      mapGet (buildCacheAux vault l st).linkCache p = mapGet st.linkCache p := by
  intro l
  induction l with
  | nil => intro st; rfl
  | cons e es ih =>
    intro st
    rw [buildCacheAux_cons, ih]
    by_cases he : p = e.1
    · rw [updateFileCache_readError st true (he ▸ h)]
    · rw [mapGet_updateFileCache_ne _ _ _ _ _ he]

theorem mapGet_buildCacheAux_ok {vault : Vault} {p : String} {c : String}
    (h : vaultLookup vault p = some (DocContent.ok c)) :
    ∀ (l : List (String × DocContent)) (st : PluginState),
      p ∈ l.map Prod.fst →
      mapGet (buildCacheAux vault l st).linkCache p = some (extractLinks c) := by
  intro l
  induction l with
  | nil => intro st hp; simp at hp
  | cons e es ih =>
    intro st hp
    rw [buildCacheAux_cons]
    by_cases hmem : p ∈ es.map Prod.fst
    · exact ih _ hmem
    · have hpe : p = e.1 := by
        rw [List.map_cons, List.mem_cons] at hp
        exact hp.resolve_right hmem
      rw [mapGet_buildCacheAux_not_mem vault es _ p hmem, ← hpe,
        updateFileCache_linkCache_ok st true h, mapGet_mapSet_self]

/-! ## Extraction lemmas -/

theorem scanLinksAux_no_bracket :
    ∀ (fuel : Nat) (cs : List Char), ']' ∉ cs → scanLinksAux fuel cs = [] := by
  intro fuel
  induction fuel with
  | zero => intro cs _; rfl
  | succ n ih =>
    intro cs h
    rcases cs with _ | ⟨c1, cs'⟩
    · rfl
    rcases cs' with _ | ⟨c2, rest⟩
    · rfl
    have hc2rest : ']' ∉ c2 :: rest := fun hm => h (List.mem_cons_of_mem _ hm)
    have hrest : ']' ∉ rest := fun hm => hc2rest (List.mem_cons_of_mem _ hm)
    simp only [scanLinksAux]
    by_cases hbr : c1 = '[' ∧ c2 = '['
    · rw [if_pos hbr]
      have hdrop : rest.dropWhile (fun c => c ≠ ']') = [] := by
        rw [List.dropWhile_eq_nil_iff]
        intro x hx
        have hxne : x ≠ ']' := fun hxe => hrest (hxe ▸ hx)
        simp [hxne]
      rw [hdrop]
      rw [if_neg]
      · exact ih _ hc2rest
      · rintro ⟨-, htake⟩
        simp at htake
    · rw [if_neg hbr]
      exact ih _ hc2rest

theorem mem_extract_step {acc : StrSet} {m : List Char} {y : String}
    (h : y ∈ (if linkNameOf m ≠ "" then setAdd acc (linkNameOf m) else acc)) :
    y ∈ acc ∨ (y = linkNameOf m ∧ linkNameOf m ≠ "") := by
  by_cases hn : linkNameOf m ≠ ""
  · rw [if_pos hn, mem_setAdd] at h
    exact h.imp_right fun he => ⟨he, hn⟩
  · rw [if_neg hn] at h
    exact Or.inl h

theorem mem_extract_fold :
    ∀ (ms : List (List Char)) (acc : StrSet) (x : String),
      (∀ y ∈ acc, y ≠ "") →
      x ∈ ms.foldl
          (fun links m =>
            let n := linkNameOf m
            if n ≠ "" then setAdd links n else links)
          acc →
      x ≠ "" := by
  intro ms
  induction ms with
  | nil => intro acc x hacc hx; exact hacc x hx
  | cons m ms ih =>
    intro acc x hacc hx
    simp only [List.foldl_cons] at hx
    refine ih _ _ ?_ hx
    intro y hy
    rcases mem_extract_step hy with hmem | ⟨rfl, hne⟩
    · exact hacc y hmem
    · exact hne

/-! ## The claims -/

/-- Claim C1: extraction scans left-to-right and non-overlapping for
`[[target]]` / `[[target|alias]]` markers, strips the alias at the
first `|`, trims whitespace, and keeps exactly the non-empty results;
unterminated markers produce no match and no error; on
`"See [[Foo Bar|display]] and [[Baz]]"` the result is exactly
`Foo Bar` and `Baz`. -/
theorem extraction_contract :
    extractLinks "See [[Foo Bar|display]] and [[Baz]]" = ["Foo Bar", "Baz"] ∧
    extractLinks "unterminated [[Foo and [[Bar|x" = [] ∧
    extractLinks "pad [[  Foo Bar  ]] [[   ]] [[ |alias ]] end" = ["Foo Bar"] ∧
    (∀ content : String, ']' ∉ content.data → extractLinks content = []) ∧
    (∀ content s : String, s ∈ extractLinks content → s ≠ "") := by
  refine ⟨by decide, by decide, by decide, ?_, ?_⟩
  · intro content h
    unfold extractLinks scanLinks
    rw [scanLinksAux_no_bracket _ _ h]
    rfl
  · intro content s hs
    unfold extractLinks at hs
    exact mem_extract_fold _ _ _ (by simp) hs

/-- Witness for the quantified parts of the C1 theorem at concrete
inputs. -/
theorem extraction_contract_instance :
    extractLinks "no closing marker [[Foo" = [] ∧ ("Baz" : String) ≠ "" :=
  ⟨extraction_contract.2.2.2.1 "no closing marker [[Foo" (by decide),
   extraction_contract.2.2.2.2 "See [[Foo Bar|display]] and [[Baz]]" "Baz"
     (by decide)⟩

/-- Claim C2: a link name resolves iff a document named exactly `L` or
named `L ++ ".md"` exists, and a resolving name is never reported as an
orphan. -/
theorem resolution_policy (vault : Vault) (st : PluginState) (L : String) :
    (resolves vault L = true ↔
      (existsPath vault L = true ∨ existsPath vault (L ++ ".md") = true)) ∧
    (resolves vault L = true → L ∉ getOrphans vault st) := by
  constructor
  · simp [resolves, Bool.or_eq_true, or_comm]
  · intro h hmem
    rw [mem_getOrphans] at hmem
    obtain ⟨e, -, -, hres⟩ := hmem
    rw [h] at hres
    cases hres

/-- Witness for C2: `"Target.md"` exists, so the link name `"Target"`
is not an orphan. -/
theorem resolution_policy_instance :
    "Target" ∉
      getOrphans [("Target.md", DocContent.ok "")] ⟨[("A.md", ["Target"])], 0⟩ :=
  (resolution_policy [("Target.md", DocContent.ok "")]
      ⟨[("A.md", ["Target"])], 0⟩ "Target").2 (by decide)

/-- Claim C3: the orphans query returns a duplicate-free list sorted in
the total case-sensitive lexicographic order, containing exactly the
indexed link names that fail the existence check; on indexed names
`zeta`, `alpha`, `Beta` with nothing resolving it returns
`["Beta", "alpha", "zeta"]`. -/
theorem orphans_sorted_dedup_complete (vault : Vault) (st : PluginState) :
    (getOrphans vault st).Sorted (fun a b => strLe a b = true) ∧
    (getOrphans vault st).Nodup ∧
    (∀ l, l ∈ getOrphans vault st ↔
      ∃ e, e ∈ st.linkCache ∧ l ∈ e.2 ∧ resolves vault l = false) ∧
    getOrphans [] ⟨[("doc.md", ["zeta", "alpha", "Beta"])], 0⟩ =
      ["Beta", "alpha", "zeta"] :=
  ⟨sorted_getOrphans vault st, nodup_getOrphans vault st,
   fun l => mem_getOrphans vault st l, by decide⟩

/-- Claim C4: the orphan list is recomputed from the current store at
every call — after indexing `A.md` with link `Ghost` the query reports
`Ghost`, and once `Ghost.md` appears in the store the very same index
state yields an empty orphan list with no index mutation. -/
theorem orphans_fresh_scenario :
    buildCache [] ⟨[], 0⟩ = ⟨[], 0⟩ ∧
    getOrphans [("A.md", DocContent.ok "[[Ghost]]")]
        (updateFileCache [("A.md", DocContent.ok "[[Ghost]]")] ⟨[], 0⟩ "A.md" false) =
      ["Ghost"] ∧
    getOrphans [("A.md", DocContent.ok "[[Ghost]]"), ("Ghost.md", DocContent.ok "")]
        (updateFileCache [("A.md", DocContent.ok "[[Ghost]]")] ⟨[], 0⟩ "A.md" false) =
      [] :=
  ⟨rfl, by decide, by decide⟩

/-- Claim C5: `updateFileCache` replaces the value-set at a key
wholesale; indexing content `[[A]]` and then `[[B]]` for the same
document leaves exactly the set containing `B`. -/
theorem upsert_replaces_wholesale (st : PluginState) (docId : String)
    (b1 b2 : Bool) :
    mapGet ((updateFileCache [(docId, DocContent.ok "[[B]]")]
        (updateFileCache [(docId, DocContent.ok "[[A]]")] st docId b1)
        docId b2).linkCache) docId = some ["B"] := by
  have hB : vaultLookup [(docId, DocContent.ok "[[B]]")] docId =
      some (DocContent.ok "[[B]]") := by
    rw [vaultLookup_cons]
    simp
  rw [updateFileCache_linkCache_ok _ b2 hB, mapGet_mapSet_self]
  have he : extractLinks "[[B]]" = ["B"] := by decide
  rw [he]

/-- Counterexample to claim C6 as stated: with `oldId = newId = "a"`
indexed with set containing `X`, the rename handler deletes the entry
instead of keeping the value-set at `newId`. -/
theorem rename_same_id_counterexample :
    mapHas (⟨[("a", ["X"])], 0⟩ : PluginState).linkCache "a" = true ∧
    mapGet (⟨[("a", ["X"])], 0⟩ : PluginState).linkCache "a" = some ["X"] ∧
    mapGet (onRename ⟨[("a", ["X"])], 0⟩ "a" "a").linkCache "a" = none :=
  ⟨by decide, by decide, by decide⟩

/-- Claim C6 (amended): for every pair of DISTINCT identities, if
`oldId` is indexed the rename moves its value-set unchanged to `newId`
and removes the entry at `oldId`; if `oldId` is not indexed the rename
leaves the index unchanged (in particular no empty entry appears at
`newId`). -/
theorem rename_moves_value_set (st : PluginState) (oldP newP : String)
    (hne : oldP ≠ newP) :
    (mapHas st.linkCache oldP = true →
      mapGet (onRename st newP oldP).linkCache newP = mapGet st.linkCache oldP ∧
      mapGet (onRename st newP oldP).linkCache oldP = none) ∧
    (mapHas st.linkCache oldP = false →
      (onRename st newP oldP).linkCache = st.linkCache) := by
  constructor
  · intro hhas
    obtain ⟨v, hv⟩ := (mapHas_iff _ _).mp hhas
    unfold onRename
    rw [if_pos hhas]
    constructor
    · show mapGet
        (mapDelete (mapSet st.linkCache newP ((mapGet st.linkCache oldP).getD []))
          oldP) newP = mapGet st.linkCache oldP
      rw [mapGet_mapDelete_ne _ _ _ (Ne.symm hne), mapGet_mapSet_self, hv]
      rfl
    · show mapGet
        (mapDelete (mapSet st.linkCache newP ((mapGet st.linkCache oldP).getD []))
          oldP) oldP = none
      exact mapGet_mapDelete_self _ _
  · intro hhas
    unfold onRename
    rw [if_neg (by simp [hhas])]
    rfl

/-- Witness for C6 (amended) at the concrete rename of `"a"` to
`"b"`. -/
theorem rename_moves_value_set_instance :
    mapGet (onRename ⟨[("a", ["X"])], 0⟩ "b" "a").linkCache "b" = some ["X"] ∧
    mapGet (onRename ⟨[("a", ["X"])], 0⟩ "b" "a").linkCache "a" = none := by
  have h := (rename_moves_value_set ⟨[("a", ["X"])], 0⟩ "a" "b" (by decide)).1
    (by decide)
  exact ⟨h.1.trans (by decide), h.2⟩

/-- Claim C7: re-indexing the same document twice against the same
store leaves the cached value-set for that document exactly as after
one call. -/
theorem upsert_idempotent (vault : Vault) (st : PluginState) (docId : String)
    (b b' : Bool) :
    mapGet ((updateFileCache vault (updateFileCache vault st docId b)
        docId b').linkCache) docId =
      mapGet ((updateFileCache vault st docId b).linkCache) docId := by
  cases hv : vaultLookup vault docId with
  | none => rw [updateFileCache_none _ b' hv]
  | some d =>
    cases d with
    | readError => rw [updateFileCache_readError _ b' hv]
    | ok c =>
      rw [updateFileCache_linkCache_ok _ b' hv, mapGet_mapSet_self,
        updateFileCache_linkCache_ok _ b hv, mapGet_mapSet_self]

/-- Claim C8: when the creation target already exists, `createFile` (in
the revision with the existence check, src/README.md lines 264-288)
does not fail the action: it opens the existing document with a
non-fatal notice, and neither the store nor the plugin state (hence the
index) changes. -/
theorem createFileChecked_conflict_opens_existing (normalize : String → String)
    (vault : Vault) (st : PluginState) (linkName : String)
    (h : existsPath vault (normalize (fileNameFor linkName)) = true) :
    createFileChecked normalize vault st linkName =
      (st, ⟨vault, some (normalize (fileNameFor linkName)),
        NoticeKind.openedExisting (normalize (fileNameFor linkName))⟩) := by
  unfold createFileChecked
  rw [if_pos h]

/-- Witness for C8 at a concrete conflicting creation. -/
theorem createFileChecked_conflict_opens_existing_instance :
    createFileChecked id [("Doc.md", DocContent.ok "")] ⟨[], 0⟩ "Doc" =
      (⟨[], 0⟩, ⟨[("Doc.md", DocContent.ok "")], some "Doc.md",
        NoticeKind.openedExisting "Doc.md"⟩) :=
  (createFileChecked_conflict_opens_existing id [("Doc.md", DocContent.ok "")]
      ⟨[], 0⟩ "Doc" (by decide)).trans (by decide)

/-- Claim C9: the batch rebuild isolates per-document failures — a
document whose read fails keeps its prior entry (or stays absent),
every readable document is still indexed, and its unresolved links
still appear in subsequent orphan queries. -/
theorem buildCache_isolates_failures (vault : Vault) (st : PluginState) :
    (∀ p, vaultLookup vault p = some DocContent.readError →
      mapGet (buildCache vault st).linkCache p = mapGet st.linkCache p) ∧
    (∀ p c, vaultLookup vault p = some (DocContent.ok c) →
      mapGet (buildCache vault st).linkCache p = some (extractLinks c)) ∧
    (∀ p c l, vaultLookup vault p = some (DocContent.ok c) →
      l ∈ extractLinks c → resolves vault l = false →
      l ∈ getOrphans vault (buildCache vault st)) := by
  refine ⟨?_, ?_, ?_⟩
  · intro p h
    rw [buildCache_eq_aux]
    exact mapGet_buildCacheAux_readError h vault st
  · intro p c h
    rw [buildCache_eq_aux]
    exact mapGet_buildCacheAux_ok h vault st (vaultLookup_mem_keys h)
  · intro p c l h hl hres
    have hget : mapGet (buildCache vault st).linkCache p = some (extractLinks c) := by
      rw [buildCache_eq_aux]
      exact mapGet_buildCacheAux_ok h vault st (vaultLookup_mem_keys h)
    rw [mem_getOrphans]
    exact ⟨(p, extractLinks c), mapGet_mem hget, hl, hres⟩

/-- Witness for C9: one unreadable and one readable document; the
readable document's link still shows up as an orphan after the
rebuild. -/
theorem buildCache_isolates_failures_instance :
    "X" ∈ getOrphans
        [("Bad.md", DocContent.readError), ("Good.md", DocContent.ok "[[X]]")]
        (buildCache
          [("Bad.md", DocContent.readError), ("Good.md", DocContent.ok "[[X]]")]
          ⟨[], 0⟩) :=
  (buildCache_isolates_failures
      [("Bad.md", DocContent.readError), ("Good.md", DocContent.ok "[[X]]")]
      ⟨[], 0⟩).2.2 "Good.md" "[[X]]" "X" (by decide) (by decide) (by decide)

/-- Claim C10: updating the cache for a path that does not resolve to a
document leaves the whole plugin state unchanged — no entry is created
or overwritten anywhere and no refresh notification is emitted. -/
theorem updateFileCache_unresolved_noop (vault : Vault) (st : PluginState)
    (p : String) (b : Bool) (h : vaultLookup vault p = none) :
    updateFileCache vault st p b = st :=
  updateFileCache_none st b h

/-- Witness for C10 at a concrete missing path. -/
theorem updateFileCache_unresolved_noop_instance :
    updateFileCache [("A.md", DocContent.ok "[[X]]")] ⟨[("A.md", ["X"])], 5⟩
        "B.md" false =
      ⟨[("A.md", ["X"])], 5⟩ :=
  updateFileCache_unresolved_noop [("A.md", DocContent.ok "[[X]]")]
    ⟨[("A.md", ["X"])], 5⟩ "B.md" false (by decide)

end AdoptOrphan
